import Mathlib

/-!
Verification of the one-away deduction engine, a shallow embedding of
src/lib/deduction.ts.

Conventions of the embedding:
* JS strings are modelled as Lean String values; words are compared for
  equality as whole strings, exactly as the source does.
* A JS Set of strings is modelled as its insertion-order, duplicate-free
  element list (jsDedup below builds one from a spread of elements,
  keeping the first occurrence of each value, which is the iteration
  order a JS Set guarantees).
* Array.prototype.sort with the default comparator sorts strings
  lexicographically; we model it with an insertion sort over a
  lexicographic character-list comparison.  (JS compares UTF-16 code
  units while Lean Char holds code points; the orders agree on all
  words without surrogate-pair characters, and no claim here depends on
  the difference.)
* The numeric guard union.size <= 4 is over natural numbers.
-/

namespace OneAway

/-- Embeds the three-valued union type of Deduction.type in the source. -/
inductive DeductionType
  | must_be_together
  | cannot_be_together
  | exactly_three
deriving DecidableEq

/-- Embeds interface OneAwayGuess: an id plus a 4-tuple of words
(the source type is [string, string, string, string]). -/
structure OneAwayGuess where
  id : String
  w1 : String
  w2 : String
  w3 : String
  w4 : String
deriving DecidableEq

/-- The 4-tuple of guess words viewed as a list, in tuple order. -/
def OneAwayGuess.wordsList (g : OneAwayGuess) : List String :=
  [g.w1, g.w2, g.w3, g.w4]

/-- The set of words of a guess. -/
def OneAwayGuess.wordsSet (g : OneAwayGuess) : Finset String :=
  g.wordsList.toFinset

/-- Embeds interface Deduction. -/
structure Deduction where
  type : DeductionType
  words : List String
  reason : String
deriving DecidableEq

/-- Embeds the record type returned by analyzeGuesses. -/
structure AnalysisResult where
  deductions : List Deduction
  possibleGroups : List (List String)
  insights : List String
deriving DecidableEq

/-- Embeds getPossibleTriplets: the four candidate triplets of a guess,
dropping the 4th, 3rd, 2nd and 1st word respectively. -/
def getPossibleTriplets (guess : OneAwayGuess) : List (List String) :=
  [ [guess.w1, guess.w2, guess.w3],
    [guess.w1, guess.w2, guess.w4],
    [guess.w1, guess.w3, guess.w4],
    [guess.w2, guess.w3, guess.w4] ]

/-- Worker for jsDedup; seen collects the values already emitted. -/
def jsDedupAux : List String → List String → List String
  | [], _ => []
  | x :: xs, seen =>
    if x ∈ seen then jsDedupAux xs seen else x :: jsDedupAux xs (x :: seen)

/-- Models building a JS Set from a list of elements and reading it back
in iteration order: the first occurrence of each value is kept. -/
def jsDedup (l : List String) : List String :=
  jsDedupAux l []

/-- Lexicographic comparison of character lists (true iff first is
less than or equal to second), matching the default JS string order. -/
def charListLe : List Char → List Char → Bool
  | [], _ => true
  | _ :: _, [] => false
  | a :: as, b :: bs => if a < b then true else if b < a then false else charListLe as bs

/-- Lexicographic string comparison used by the default Array sort. -/
def strLe (a b : String) : Bool :=
  charListLe a.data b.data

/-- Insert a string into a list sorted by strLe. -/
def insertSorted (x : String) : List String → List String
  | [] => [x]
  | y :: ys => if strLe x y then x :: y :: ys else y :: insertSorted x ys

/-- Models Array.prototype.sort with the default string comparator:
the sorted rearrangement of the list. -/
def sortStrings : List String → List String
  | [] => []
  | x :: xs => insertSorted x (sortStrings xs)

/-- Embeds Array.prototype.join(sep). -/
def joinWith (sep : String) : List String → String
  | [] => ""
  | x :: xs => xs.foldl (fun acc y => acc ++ sep ++ y) x

/-- The deduplication key used by computePossibleGroupings:
the sorted member list joined with commas. -/
def scenarioKey (scenario : List String) : String :=
  joinWith "," (sortStrings scenario)

/-- The exactly_three deduction pushed for every guess in
findDefiniteWords. -/
def exactlyThreeDeduction (g : OneAwayGuess) : Deduction :=
  { type := DeductionType.exactly_three,
    words := g.wordsList,
    reason := "Exactly 3 of these 4 words are in the same group" }

/-- Embeds the expression g1.words.filter((w) => g2.words.includes(w)). -/
def commonWords (g1 g2 : OneAwayGuess) : List String :=
  g1.wordsList.filter (fun w => decide (w ∈ g2.wordsList))

/-- The must_be_together deduction pushed for a pair of guesses with
three or more common words. -/
def mustBeTogetherDeduction (g1 g2 : OneAwayGuess) : Deduction :=
  { type := DeductionType.must_be_together,
    words := commonWords g1 g2,
    reason := "These words appear in multiple one-away guesses" }

/-- The double loop of findDefiniteWords over pairs i < j, in loop
order.  (The source guards the loops with guesses.length >= 2; for
shorter lists the loops emit nothing, so the guard is redundant and is
not modelled separately.) -/
def pairDeductions : List OneAwayGuess → List Deduction
  | [] => []
  | g :: rest =>
    rest.filterMap (fun g2 =>
      if 3 ≤ (commonWords g g2).length then some (mustBeTogetherDeduction g g2) else none)
    ++ pairDeductions rest

/-- Embeds findDefiniteWords: one exactly_three deduction per guess, in
guess order, followed by the pairwise must_be_together deductions. -/
def findDefiniteWords (guesses : List OneAwayGuess) : List Deduction :=
  guesses.map exactlyThreeDeduction ++ pairDeductions guesses

/-- Embeds new Set([...scenario, ...new Set(triplet)]): the union of a
scenario with a triplet, in insertion order. -/
def mergeScenario (scenario triplet : List String) : List String :=
  jsDedup (scenario ++ jsDedup triplet)

/-- One iteration of the scenario loop of computePossibleGroupings:
merge every current scenario with every triplet of the next guess,
keeping merges of at most 4 distinct words. -/
def scenarioStep (poss : List (List String)) (g : OneAwayGuess) : List (List String) :=
  poss.flatMap (fun scenario =>
    (getPossibleTriplets g).filterMap (fun triplet =>
      if (mergeScenario scenario triplet).length ≤ 4
      then some (mergeScenario scenario triplet) else none))

/-- The final deduplication loop of computePossibleGroupings; seen
collects the keys already emitted. -/
def dedupScenariosAux : List (List String) → List String → List (List String)
  | [], _ => []
  | s :: rest, seen =>
    if scenarioKey s ∈ seen then dedupScenariosAux rest seen
    else s :: dedupScenariosAux rest (scenarioKey s :: seen)

/-- Embeds computePossibleGroupings. -/
def computePossibleGroupings (allWords : List String) (guesses : List OneAwayGuess) :
    List (List String) :=
  match guesses with
  | [] => []
  | g0 :: rest =>
    let init := (getPossibleTriplets g0).map jsDedup
    let possibleScenarios := rest.foldl scenarioStep init
    dedupScenariosAux possibleScenarios []

/-- Embeds the definitelyTogether computation inside analyzeGuesses:
the members of the first possible group that occur in every possible
group. -/
def definitelyTogetherWords (possibleGroups : List (List String)) : List String :=
  (jsDedup (possibleGroups.headD [])).filter
    (fun word => possibleGroups.all (fun group => decide (word ∈ group)))

/-- Embeds analyzeGuesses. -/
def analyzeGuesses (allWords : List String) (guesses : List OneAwayGuess) :
    AnalysisResult :=
  let deductions := findDefiniteWords guesses
  let possibleGroups := computePossibleGroupings allWords guesses
  match guesses with
  | [] =>
    { deductions := deductions, possibleGroups := possibleGroups,
      insights := ["Log a one-away guess to start deducing!"] }
  | g0 :: rest =>
    let insightsOne : List String :=
      if rest.length = 0 then
        ["One of these 4 words doesn\u0027t belong with the other 3: "
          ++ joinWith ", " g0.wordsList]
      else []
    let insightsCount : List String :=
      if possibleGroups.length = 1 then
        ["Found a definite group: " ++ joinWith ", " (possibleGroups.headD [])]
      else if 1 < possibleGroups.length ∧ possibleGroups.length ≤ 4 then
        ["Narrowed down to " ++ toString possibleGroups.length ++ " possible groupings"]
      else []
    let insightsTogether : List String :=
      if 0 < possibleGroups.length then
        if 2 ≤ (definitelyTogetherWords possibleGroups).length then
          ["These words are definitely together: "
            ++ joinWith ", " (definitelyTogetherWords possibleGroups)]
        else []
      else []
    { deductions := deductions, possibleGroups := possibleGroups,
      insights := insightsOne ++ insightsCount ++ insightsTogether }

/-- A word is comma-free when none of its characters is a comma; the
deduplication key of computePossibleGroupings separates words by commas
and is only injective on comma-free words. -/
def commaFreeWord (w : String) : Prop := (',' : Char) ∉ w.data

instance commaFreeWord.instDecidable (w : String) : Decidable (commaFreeWord w) :=
  inferInstanceAs (Decidable ((',' : Char) ∉ w.data))

/-- A list of candidate triplets, one drawn from each guess of the list,
pairing the i-th guess with the i-th triplet. -/
def isTripletChoice (gs : List OneAwayGuess) (ts : List (List String)) : Prop :=
  List.Forall₂ (fun g t => t ∈ getPossibleTriplets g) gs ts

/-- The union of the word sets of a list of triplets. -/
def unionFinsets (ts : List (List String)) : Finset String :=
  ts.foldr (fun t acc => t.toFinset ∪ acc) ∅

/-- The scenarios of a scenario list viewed as a set of word sets. -/
def scenarioFinsets (l : List (List String)) : Finset (Finset String) :=
  (l.map List.toFinset).toFinset

/-- A deduction with its word list abstracted to a word set; two
deductions are the same abstract deduction when they agree up to the
order in which the words are listed. -/
def abstractDeduction (d : Deduction) : DeductionType × Finset String × String :=
  (d.type, d.words.toFinset, d.reason)

/-- The deductions of a list viewed as a set of abstract deductions. -/
def abstractDeductions (l : List Deduction) : Finset (DeductionType × Finset String × String) :=
  (l.map abstractDeduction).toFinset

/-! ### Basic properties of the JS Set model -/

theorem jsDedupAux_mem {l seen : List String} {x : String} :
    x ∈ jsDedupAux l seen ↔ x ∈ l ∧ x ∉ seen := by
  induction l generalizing seen with
  | nil => simp [jsDedupAux]
  | cons y ys ih =>
    by_cases hy : y ∈ seen
    · simp only [jsDedupAux, if_pos hy, ih, List.mem_cons]
      constructor
      · rintro ⟨h1, h2⟩; exact ⟨Or.inr h1, h2⟩
      · rintro ⟨h1 | h1, h2⟩
        · exact absurd (h1 ▸ hy) h2
        · exact ⟨h1, h2⟩
    · simp only [jsDedupAux, if_neg hy, List.mem_cons, ih]
      by_cases hxy : x = y
      · subst hxy; simp [hy]
      · simp [hxy]

theorem jsDedup_mem {l : List String} {x : String} : x ∈ jsDedup l ↔ x ∈ l := by
  simp [jsDedup, jsDedupAux_mem]

theorem jsDedupAux_nodup (l seen : List String) : (jsDedupAux l seen).Nodup := by
  induction l generalizing seen with
  | nil => simp [jsDedupAux]
  | cons y ys ih =>
    by_cases hy : y ∈ seen
    · simpa [jsDedupAux, hy] using ih seen
    · simp only [jsDedupAux, if_neg hy, List.nodup_cons]
      refine ⟨fun hmem => ?_, ih _⟩
      exact (jsDedupAux_mem.mp hmem).2 (List.mem_cons_self _ _)

theorem jsDedup_nodup (l : List String) : (jsDedup l).Nodup :=
  jsDedupAux_nodup l []

theorem jsDedup_toFinset (l : List String) : (jsDedup l).toFinset = l.toFinset := by
  ext x; simp [jsDedup_mem]

theorem jsDedup_length (l : List String) : (jsDedup l).length = l.toFinset.card := by
  rw [← jsDedup_toFinset, List.toFinset_card_of_nodup (jsDedup_nodup l)]

theorem jsDedup_ne_nil {l : List String} (h : l ≠ []) : jsDedup l ≠ [] := by
  cases l with
  | nil => exact absurd rfl h
  | cons x xs =>
    intro hcon
    have : x ∈ jsDedup (x :: xs) := jsDedup_mem.mpr (List.mem_cons_self _ _)
    simp [hcon] at this

theorem mergeScenario_toFinset (s t : List String) :
    (mergeScenario s t).toFinset = s.toFinset ∪ t.toFinset := by
  simp [mergeScenario, jsDedup_toFinset, List.toFinset_append]

theorem mergeScenario_nodup (s t : List String) : (mergeScenario s t).Nodup :=
  jsDedup_nodup _

theorem mergeScenario_length (s t : List String) :
    (mergeScenario s t).length = (s.toFinset ∪ t.toFinset).card := by
  rw [mergeScenario, jsDedup_length, List.toFinset_append, jsDedup_toFinset]

theorem mergeScenario_ne_nil {s : List String} (t : List String) (h : s ≠ []) :
    mergeScenario s t ≠ [] := by
  apply jsDedup_ne_nil
  cases s with
  | nil => exact absurd rfl h
  | cons x xs => simp

/-! ### The string order used by the sort -/

theorem charListLe_total : ∀ a b : List Char, charListLe a b = true ∨ charListLe b a = true
  | [], _ => Or.inl rfl
  | _ :: _, [] => Or.inr rfl
  | a :: as, b :: bs => by
    rcases lt_trichotomy a b with h | h | h
    · left; simp [charListLe, h]
    · subst h
      rcases charListLe_total as bs with ih | ih
      · left; simp [charListLe, lt_irrefl, ih]
      · right; simp [charListLe, lt_irrefl, ih]
    · right; simp [charListLe, h]

theorem charListLe_antisymm : ∀ {a b : List Char},
    charListLe a b = true → charListLe b a = true → a = b
  | [], [], _, _ => rfl
  | [], _ :: _, _, h2 => by simp [charListLe] at h2
  | _ :: _, [], h1, _ => by simp [charListLe] at h1
  | a :: as, b :: bs, h1, h2 => by
    rcases lt_trichotomy a b with h | h | h
    · have hna : ¬ b < a := asymm h
      simp [charListLe, h, hna] at h2
    · subst h
      simp only [charListLe, lt_irrefl, if_false] at h1 h2
      exact congrArg (List.cons a) (charListLe_antisymm h1 h2)
    · have hna : ¬ a < b := asymm h
      simp [charListLe, h, hna] at h1

theorem charListLe_trans : ∀ {a b c : List Char},
    charListLe a b = true → charListLe b c = true → charListLe a c = true
  | [], _, _, _, _ => rfl
  | _ :: _, [], _, h1, _ => by simp [charListLe] at h1
  | _ :: _, _ :: _, [], _, h2 => by simp [charListLe] at h2
  | a :: as, b :: bs, c :: cs, h1, h2 => by
    rcases lt_trichotomy a b with hab | hab | hab
    · rcases lt_trichotomy b c with hbc | hbc | hbc
      · simp [charListLe, lt_trans hab hbc]
      · subst hbc; simp [charListLe, hab]
      · have h1' : ¬ b < c := asymm hbc
        simp [charListLe, h1', hbc] at h2
    · subst hab
      rcases lt_trichotomy a c with hac | hac | hac
      · simp [charListLe, hac]
      · subst hac
        simp only [charListLe, lt_irrefl, if_false] at h1 h2 ⊢
        exact charListLe_trans h1 h2
      · have h2' : ¬ a < c := asymm hac
        simp [charListLe, h2', hac] at h2
    · have h1' : ¬ a < b := asymm hab
      simp [charListLe, h1', hab] at h1

theorem strLe_total (a b : String) : strLe a b = true ∨ strLe b a = true :=
  charListLe_total a.data b.data

theorem strLe_antisymm {a b : String} (h1 : strLe a b = true) (h2 : strLe b a = true) :
    a = b :=
  String.ext (charListLe_antisymm h1 h2)

theorem strLe_trans {a b c : String} (h1 : strLe a b = true) (h2 : strLe b c = true) :
    strLe a c = true :=
  charListLe_trans h1 h2

/-! ### The sort produces the sorted rearrangement -/

theorem insertSorted_perm (x : String) (l : List String) :
    (insertSorted x l).Perm (x :: l) := by
  induction l with
  | nil => exact List.Perm.refl _
  | cons y ys ih =>
    by_cases h : strLe x y
    · simp [insertSorted, h]
    · simp only [insertSorted, if_neg h]
      exact (List.Perm.cons y ih).trans (List.Perm.swap x y ys)

theorem insertSorted_sorted {x : String} {l : List String}
    (h : List.Sorted (fun a b => strLe a b = true) l) :
    List.Sorted (fun a b => strLe a b = true) (insertSorted x l) := by
  induction l with
  | nil => simp [insertSorted]
  | cons y ys ih =>
    rcases List.sorted_cons.mp h with ⟨hy, hys⟩
    by_cases hxy : strLe x y = true
    · simp only [insertSorted, if_pos hxy, List.sorted_cons]
      refine ⟨fun b hb => ?_, hy, hys⟩
      rcases List.mem_cons.mp hb with hb | hb
      · exact hb ▸ hxy
      · exact strLe_trans hxy (hy b hb)
    · have hyx : strLe y x = true := (strLe_total x y).resolve_left hxy
      simp only [insertSorted, if_neg hxy, List.sorted_cons]
      refine ⟨fun b hb => ?_, ih hys⟩
      rcases List.mem_cons.mp ((insertSorted_perm x ys).mem_iff.mp hb) with hb | hb
      · exact hb ▸ hyx
      · exact hy b hb

theorem sortStrings_perm (l : List String) : (sortStrings l).Perm l := by
  induction l with
  | nil => exact List.Perm.refl _
  | cons x xs ih =>
    exact (insertSorted_perm x (sortStrings xs)).trans (List.Perm.cons x ih)

theorem sortStrings_sorted (l : List String) :
    List.Sorted (fun a b => strLe a b = true) (sortStrings l) := by
  induction l with
  | nil => simp [sortStrings]
  | cons x xs ih => exact insertSorted_sorted ih

theorem sortStrings_congr {l1 l2 : List String} (h : l1.Perm l2) :
    sortStrings l1 = sortStrings l2 := by
  haveI : IsAntisymm String (fun a b => strLe a b = true) :=
    ⟨fun _ _ h1 h2 => strLe_antisymm h1 h2⟩
  exact List.eq_of_perm_of_sorted
    ((sortStrings_perm l1).trans (h.trans (sortStrings_perm l2).symm))
    (sortStrings_sorted l1) (sortStrings_sorted l2)

/-! ### The join and the deduplication key -/

theorem strAppend_assoc (a b c : String) : a ++ b ++ c = a ++ (b ++ c) :=
  String.ext (by simp [String.data_append, List.append_assoc])

theorem joinWith_foldl_append (sep : String) (l : List String) :
    ∀ a b : String, l.foldl (fun acc y => acc ++ sep ++ y) (a ++ b) =
      a ++ l.foldl (fun acc y => acc ++ sep ++ y) b := by
  induction l with
  | nil => intro a b; rfl
  | cons y ys ih =>
    intro a b
    simp only [List.foldl_cons]
    rw [strAppend_assoc (a ++ b) sep y, strAppend_assoc a b (sep ++ y),
      ← strAppend_assoc b sep y, ih a (b ++ sep ++ y)]

theorem joinWith_cons_cons (sep : String) (x y : String) (l : List String) :
    joinWith sep (x :: y :: l) = x ++ sep ++ joinWith sep (y :: l) := by
  show (y :: l).foldl (fun acc z => acc ++ sep ++ z) x = _
  simp only [List.foldl_cons]
  rw [joinWith_foldl_append sep l (x ++ sep) y]
  rfl

theorem sepSplit_inj : ∀ {a b r1 r2 : List Char}, (',' : Char) ∉ a → (',' : Char) ∉ b →
    a ++ ',' :: r1 = b ++ ',' :: r2 → a = b ∧ r1 = r2
  | [], [], r1, r2, _, _, h => ⟨rfl, by simpa using h⟩
  | [], c :: cb, r1, r2, _, hb, h => by
    simp only [List.nil_append, List.cons_append, List.cons.injEq] at h
    exact absurd (h.1 ▸ List.mem_cons_self c cb) hb
  | c :: ca, [], r1, r2, ha, _, h => by
    simp only [List.nil_append, List.cons_append, List.cons.injEq] at h
    exact absurd (h.1 ▸ List.mem_cons_self c ca) ha
  | c :: ca, d :: cb, r1, r2, ha, hb, h => by
    simp only [List.cons_append, List.cons.injEq] at h
    obtain ⟨hcd, htail⟩ := h
    have ha' : (',' : Char) ∉ ca := fun hm => ha (List.mem_cons_of_mem _ hm)
    have hb' : (',' : Char) ∉ cb := fun hm => hb (List.mem_cons_of_mem _ hm)
    obtain ⟨h1, h2⟩ := sepSplit_inj ha' hb' htail
    exact ⟨by rw [hcd, h1], h2⟩

theorem joinComma_data_cons_cons (x y : String) (l : List String) :
    (joinWith "," (x :: y :: l)).data = x.data ++ ',' :: (joinWith "," (y :: l)).data := by
  rw [joinWith_cons_cons]
  simp [String.data_append]

theorem joinComma_inj : ∀ (l1 l2 : List String), l1 ≠ [] → l2 ≠ [] →
    (∀ w ∈ l1, commaFreeWord w) → (∀ w ∈ l2, commaFreeWord w) →
    joinWith "," l1 = joinWith "," l2 → l1 = l2
  | [], _, h, _, _, _, _ => absurd rfl h
  | _ :: _, [], _, h, _, _, _ => absurd rfl h
  | [x], [y], _, _, _, _, h => by
    simp only [joinWith, List.foldl_nil] at h
    simp [h]
  | [x], y1 :: y2 :: ys, _, _, hc1, _, h => by
    have hx : commaFreeWord x := hc1 x (List.mem_cons_self _ _)
    have hd := congrArg String.data h
    rw [joinComma_data_cons_cons] at hd
    simp only [joinWith] at hd
    exact absurd (hd ▸ (List.mem_append.mpr (Or.inr (List.mem_cons_self _ _)))) hx
  | x1 :: x2 :: xs, [y], _, _, _, hc2, h => by
    have hy : commaFreeWord y := hc2 y (List.mem_cons_self _ _)
    have hd := congrArg String.data h
    rw [joinComma_data_cons_cons] at hd
    simp only [joinWith] at hd
    exact absurd (hd.symm ▸ (List.mem_append.mpr (Or.inr (List.mem_cons_self _ _)))) hy
  | x1 :: x2 :: xs, y1 :: y2 :: ys, _, _, hc1, hc2, h => by
    have hd := congrArg String.data h
    rw [joinComma_data_cons_cons, joinComma_data_cons_cons] at hd
    obtain ⟨h1, h2⟩ := sepSplit_inj (hc1 x1 (List.mem_cons_self _ _))
      (hc2 y1 (List.mem_cons_self _ _)) hd
    have htail := joinComma_inj (x2 :: xs) (y2 :: ys) (by simp) (by simp)
      (fun w hw => hc1 w (List.mem_cons_of_mem _ hw))
      (fun w hw => hc2 w (List.mem_cons_of_mem _ hw))
      (String.ext h2)
    rw [String.ext h1, htail]

theorem scenarioKey_congr {s t : List String} (hs : s.Nodup) (ht : t.Nodup)
    (h : s.toFinset = t.toFinset) : scenarioKey s = scenarioKey t := by
  unfold scenarioKey
  rw [sortStrings_congr (List.perm_of_nodup_nodup_toFinset_eq hs ht h)]

theorem scenarioKey_inj {s t : List String} (hs : s.Nodup) (ht : t.Nodup)
    (hsne : s ≠ []) (htne : t ≠ [])
    (hcs : ∀ w ∈ s, commaFreeWord w) (hct : ∀ w ∈ t, commaFreeWord w)
    (h : scenarioKey s = scenarioKey t) : s.toFinset = t.toFinset := by
  have hperm := sortStrings_perm s
  have hperm2 := sortStrings_perm t
  have hne1 : sortStrings s ≠ [] := by
    intro hcon
    have hlen := hperm.length_eq
    rw [hcon] at hlen
    exact hsne (List.eq_nil_of_length_eq_zero (by simpa using hlen.symm))
  have hne2 : sortStrings t ≠ [] := by
    intro hcon
    have hlen := hperm2.length_eq
    rw [hcon] at hlen
    exact htne (List.eq_nil_of_length_eq_zero (by simpa using hlen.symm))
  have heq := joinComma_inj (sortStrings s) (sortStrings t) hne1 hne2
    (fun w hw => hcs w (hperm.mem_iff.mp hw))
    (fun w hw => hct w (hperm2.mem_iff.mp hw)) h
  calc s.toFinset = (sortStrings s).toFinset := (List.toFinset_eq_of_perm _ _ hperm).symm
    _ = (sortStrings t).toFinset := by rw [heq]
    _ = t.toFinset := List.toFinset_eq_of_perm _ _ hperm2

/-! ### Characterizing the scenario propagation -/

theorem triplet_length {g : OneAwayGuess} {t : List String}
    (ht : t ∈ getPossibleTriplets g) : t.length = 3 := by
  simp only [getPossibleTriplets, List.mem_cons, List.not_mem_nil, or_false] at ht
  rcases ht with rfl | rfl | rfl | rfl <;> rfl

theorem triplet_ne_nil {g : OneAwayGuess} {t : List String}
    (ht : t ∈ getPossibleTriplets g) : t ≠ [] := by
  intro hcon
  have hlen := triplet_length ht
  rw [hcon] at hlen
  simp at hlen

theorem triplet_words_subset {g : OneAwayGuess} {t : List String}
    (ht : t ∈ getPossibleTriplets g) : ∀ w ∈ t, w ∈ g.wordsList := by
  intro w hw
  simp only [getPossibleTriplets, List.mem_cons, List.not_mem_nil, or_false] at ht
  rcases ht with rfl | rfl | rfl | rfl <;>
    simp only [OneAwayGuess.wordsList, List.mem_cons, List.not_mem_nil, or_false] at hw ⊢ <;>
    tauto

theorem triplet_toFinset_card_le {g : OneAwayGuess} {t : List String}
    (ht : t ∈ getPossibleTriplets g) : t.toFinset.card ≤ 4 := by
  calc t.toFinset.card ≤ t.length := List.toFinset_card_le t
    _ = 3 := triplet_length ht
    _ ≤ 4 := by omega

theorem mem_scenarioStep {poss : List (List String)} {g : OneAwayGuess}
    {s' : List String} :
    s' ∈ scenarioStep poss g ↔ ∃ s ∈ poss, ∃ t ∈ getPossibleTriplets g,
      (mergeScenario s t).length ≤ 4 ∧ s' = mergeScenario s t := by
  simp only [scenarioStep, List.mem_flatMap, List.mem_filterMap]
  constructor
  · rintro ⟨s, hs, t, ht, hif⟩
    by_cases hc : (mergeScenario s t).length ≤ 4
    · rw [if_pos hc] at hif
      exact ⟨s, hs, t, ht, hc, (Option.some.inj hif).symm⟩
    · rw [if_neg hc] at hif
      cases hif
  · rintro ⟨s, hs, t, ht, hc, rfl⟩
    exact ⟨s, hs, t, ht, by rw [if_pos hc]⟩

theorem scenarioStep_inv {poss : List (List String)} {g : OneAwayGuess}
    (hposs : ∀ s ∈ poss, s.Nodup ∧ s.toFinset.card ≤ 4) :
    ∀ s' ∈ scenarioStep poss g, s'.Nodup ∧ s'.toFinset.card ≤ 4 := by
  intro s' hmem
  obtain ⟨s, _, t, _, hc, rfl⟩ := mem_scenarioStep.mp hmem
  refine ⟨mergeScenario_nodup _ _, ?_⟩
  rw [List.toFinset_card_of_nodup (mergeScenario_nodup s t)]
  exact hc

theorem unionFinsets_cons (t : List String) (ts : List (List String)) :
    unionFinsets (t :: ts) = t.toFinset ∪ unionFinsets ts := rfl

theorem foldl_scenarioStep_char :
    ∀ (rs : List OneAwayGuess) (poss : List (List String)),
    (∀ s ∈ poss, s.Nodup ∧ s.toFinset.card ≤ 4) → ∀ F : Finset String,
    ((∃ s ∈ rs.foldl scenarioStep poss, s.toFinset = F) ↔
      (∃ s ∈ poss, ∃ ts, isTripletChoice rs ts ∧
        F = s.toFinset ∪ unionFinsets ts ∧ F.card ≤ 4))
  | [], poss, hposs, F => by
    simp only [List.foldl_nil]
    constructor
    · rintro ⟨s, hs, rfl⟩
      exact ⟨s, hs, [], List.Forall₂.nil, by simp [unionFinsets], (hposs s hs).2⟩
    · rintro ⟨s, hs, ts, hch, hF, _⟩
      have hts : ts = [] := List.forall₂_nil_left_iff.mp hch
      subst hts
      simp only [unionFinsets, List.foldr_nil, Finset.union_empty] at hF
      exact ⟨s, hs, hF.symm⟩
  | r :: rs', poss, hposs, F => by
    rw [List.foldl_cons]
    rw [foldl_scenarioStep_char rs' (scenarioStep poss r) (scenarioStep_inv hposs) F]
    constructor
    · rintro ⟨s', hs', ts', hch', hF, hcard⟩
      obtain ⟨s, hs, t, ht, _, rfl⟩ := mem_scenarioStep.mp hs'
      refine ⟨s, hs, t :: ts', ?_, ?_, hcard⟩
      · exact List.Forall₂.cons ht hch'
      · rw [hF, mergeScenario_toFinset, unionFinsets_cons, Finset.union_assoc]
    · rintro ⟨s, hs, ts, hch, hF, hcard⟩
      rcases List.forall₂_cons_left_iff.mp hch with ⟨t, ts', hrt, hch', rfl⟩
      have hsub : s.toFinset ∪ t.toFinset ⊆ F := by
        rw [hF, unionFinsets_cons, ← Finset.union_assoc]
        exact Finset.subset_union_left
      have hlen : (mergeScenario s t).length ≤ 4 := by
        rw [mergeScenario_length]
        exact le_trans (Finset.card_le_card hsub) hcard
      refine ⟨mergeScenario s t, mem_scenarioStep.mpr ⟨s, hs, t, hrt, hlen, rfl⟩,
        ts', hch', ?_, hcard⟩
      rw [hF, mergeScenario_toFinset, unionFinsets_cons, Finset.union_assoc]

theorem seed_inv (g0 : OneAwayGuess) :
    ∀ s ∈ (getPossibleTriplets g0).map jsDedup, s.Nodup ∧ s.toFinset.card ≤ 4 := by
  intro s hs
  rcases List.mem_map.mp hs with ⟨t, ht, rfl⟩
  refine ⟨jsDedup_nodup t, ?_⟩
  rw [jsDedup_toFinset]
  exact triplet_toFinset_card_le ht

/-- The scenarios surviving the whole fold, before deduplication, are
exactly the unions of one triplet per guess that stay within 4 words. -/
theorem preDedup_char (g0 : OneAwayGuess) (rest : List OneAwayGuess) (F : Finset String) :
    (∃ s ∈ rest.foldl scenarioStep ((getPossibleTriplets g0).map jsDedup),
        s.toFinset = F) ↔
    (∃ ts, isTripletChoice (g0 :: rest) ts ∧ F = unionFinsets ts ∧ F.card ≤ 4) := by
  rw [foldl_scenarioStep_char rest _ (seed_inv g0) F]
  constructor
  · rintro ⟨s, hs, ts', hch', hF, hcard⟩
    rcases List.mem_map.mp hs with ⟨t0, ht0, rfl⟩
    refine ⟨t0 :: ts', List.Forall₂.cons ht0 hch', ?_, hcard⟩
    rw [unionFinsets_cons, ← jsDedup_toFinset t0]
    exact hF
  · rintro ⟨ts, hch, hF, hcard⟩
    rcases List.forall₂_cons_left_iff.mp hch with ⟨t0, ts', ht0, hch', rfl⟩
    refine ⟨jsDedup t0, List.mem_map.mpr ⟨t0, ht0, rfl⟩, ts', hch', ?_, hcard⟩
    rw [jsDedup_toFinset, ← unionFinsets_cons]
    exact hF

/-! ### The deduplication pass -/

theorem dedupScenariosAux_subset : ∀ {l : List (List String)} {seen : List String},
    ∀ s ∈ dedupScenariosAux l seen, s ∈ l
  | [], _ => by simp [dedupScenariosAux]
  | x :: rest, seen => by
    intro s hs
    by_cases hx : scenarioKey x ∈ seen
    · rw [dedupScenariosAux, if_pos hx] at hs
      exact List.mem_cons_of_mem _ (dedupScenariosAux_subset s hs)
    · rw [dedupScenariosAux, if_neg hx] at hs
      rcases List.mem_cons.mp hs with rfl | hs
      · exact List.mem_cons_self _ _
      · exact List.mem_cons_of_mem _ (dedupScenariosAux_subset s hs)

theorem dedupScenariosAux_exists_key :
    ∀ {l : List (List String)} {seen : List String} {s : List String},
    s ∈ l → scenarioKey s ∉ seen →
    ∃ s' ∈ dedupScenariosAux l seen, scenarioKey s' = scenarioKey s
  | [], _, _, hs, _ => absurd hs (List.not_mem_nil _)
  | x :: rest, seen, s, hs, hseen => by
    by_cases hx : scenarioKey x ∈ seen
    · rw [dedupScenariosAux, if_pos hx]
      rcases List.mem_cons.mp hs with rfl | hs'
      · exact absurd hx hseen
      · exact dedupScenariosAux_exists_key hs' hseen
    · rw [dedupScenariosAux, if_neg hx]
      by_cases hkey : scenarioKey s = scenarioKey x
      · exact ⟨x, List.mem_cons_self _ _, hkey.symm⟩
      · rcases List.mem_cons.mp hs with rfl | hs'
        · exact absurd rfl hkey
        · have hseen' : scenarioKey s ∉ scenarioKey x :: seen := by
            simp only [List.mem_cons]
            rintro (h | h)
            · exact hkey h
            · exact hseen h
          obtain ⟨s', hs'', heq⟩ := dedupScenariosAux_exists_key hs' hseen'
          exact ⟨s', List.mem_cons_of_mem _ hs'', heq⟩

theorem dedupScenariosAux_key_notMem :
    ∀ {l : List (List String)} {seen : List String},
    ∀ s ∈ dedupScenariosAux l seen, scenarioKey s ∉ seen
  | [], _ => by simp [dedupScenariosAux]
  | x :: rest, seen => by
    intro s hs
    by_cases hx : scenarioKey x ∈ seen
    · rw [dedupScenariosAux, if_pos hx] at hs
      exact dedupScenariosAux_key_notMem s hs
    · rw [dedupScenariosAux, if_neg hx] at hs
      rcases List.mem_cons.mp hs with rfl | hs'
      · exact hx
      · have := dedupScenariosAux_key_notMem s hs'
        intro hcon
        exact this (List.mem_cons_of_mem _ hcon)

theorem dedupScenariosAux_pairwise_key :
    ∀ (l : List (List String)) (seen : List String),
    (dedupScenariosAux l seen).Pairwise (fun a b => scenarioKey a ≠ scenarioKey b)
  | [], _ => by simp [dedupScenariosAux]
  | x :: rest, seen => by
    by_cases hx : scenarioKey x ∈ seen
    · rw [dedupScenariosAux, if_pos hx]
      exact dedupScenariosAux_pairwise_key rest seen
    · rw [dedupScenariosAux, if_neg hx]
      refine List.Pairwise.cons ?_ (dedupScenariosAux_pairwise_key rest _)
      intro b hb hcon
      exact dedupScenariosAux_key_notMem b hb (hcon ▸ List.mem_cons_self _ _)

theorem dedup_preserves_finsets {l : List (List String)}
    (hl : ∀ s ∈ l, s.Nodup ∧ s ≠ [] ∧ ∀ w ∈ s, commaFreeWord w) (F : Finset String) :
    (∃ s ∈ dedupScenariosAux l [], s.toFinset = F) ↔ (∃ s ∈ l, s.toFinset = F) := by
  constructor
  · rintro ⟨s, hs, rfl⟩
    exact ⟨s, dedupScenariosAux_subset s hs, rfl⟩
  · rintro ⟨s, hs, rfl⟩
    obtain ⟨s', hs', hkey⟩ :=
      dedupScenariosAux_exists_key hs (List.not_mem_nil _)
    obtain ⟨hnd, hne, hcf⟩ := hl s hs
    obtain ⟨hnd', hne', hcf'⟩ := hl s' (dedupScenariosAux_subset s' hs')
    exact ⟨s', hs', scenarioKey_inj hnd' hnd hne' hne hcf' hcf hkey⟩

/-! ### Projections of analyzeGuesses -/

theorem analyzeGuesses_deductions (aw : List String) (gs : List OneAwayGuess) :
    (analyzeGuesses aw gs).deductions = findDefiniteWords gs := by
  cases gs <;> rfl

theorem analyzeGuesses_possibleGroups (aw : List String) (gs : List OneAwayGuess) :
    (analyzeGuesses aw gs).possibleGroups = computePossibleGroupings aw gs := by
  cases gs <;> rfl

/-! ### The pairwise deductions -/

theorem commonWords_toFinset (g1 g2 : OneAwayGuess) :
    (commonWords g1 g2).toFinset = g1.wordsSet ∩ g2.wordsSet := by
  ext w
  simp [commonWords, OneAwayGuess.wordsSet, List.mem_filter]

theorem commonWords_nodup {g1 : OneAwayGuess} (g2 : OneAwayGuess)
    (h1 : g1.wordsList.Nodup) : (commonWords g1 g2).Nodup :=
  h1.filter _

theorem commonWords_length {g1 : OneAwayGuess} (g2 : OneAwayGuess)
    (h1 : g1.wordsList.Nodup) :
    (commonWords g1 g2).length = (g1.wordsSet ∩ g2.wordsSet).card := by
  rw [← commonWords_toFinset, List.toFinset_card_of_nodup (commonWords_nodup g2 h1)]

theorem mem_pairDeductions : ∀ {gs : List OneAwayGuess} {d : Deduction},
    d ∈ pairDeductions gs ↔ ∃ i j : Fin gs.length, (i : ℕ) < (j : ℕ) ∧
      3 ≤ (commonWords (gs.get i) (gs.get j)).length ∧
      d = mustBeTogetherDeduction (gs.get i) (gs.get j) := by
  intro gs
  induction gs with
  | nil =>
    intro d
    simp only [pairDeductions, List.not_mem_nil, false_iff]
    rintro ⟨i, -⟩
    exact i.elim0
  | cons g rest ih =>
    intro d
    constructor
    · intro hd
      rcases List.mem_append.mp hd with hd | hd
      · rcases List.mem_filterMap.mp hd with ⟨g2, hg2, hsome⟩
        by_cases hc : 3 ≤ (commonWords g g2).length
        · rw [if_pos hc] at hsome
          rcases List.mem_iff_get.mp hg2 with ⟨j, rfl⟩
          refine ⟨⟨0, by simp⟩, ⟨(j : ℕ) + 1, by simpa using j.isLt⟩, by simp, ?_, ?_⟩
          · simpa using hc
          · simpa using (Option.some.inj hsome).symm
        · rw [if_neg hc] at hsome
          cases hsome
      · rcases ih.mp hd with ⟨i, j, hij, hc, rfl⟩
        refine ⟨⟨(i : ℕ) + 1, by simpa using i.isLt⟩,
          ⟨(j : ℕ) + 1, by simpa using j.isLt⟩, by simpa using hij, ?_, ?_⟩
        · simpa using hc
        · simp
    · rintro ⟨⟨iv, hi⟩, ⟨jv, hj⟩, hij, hc, rfl⟩
      cases jv with
      | zero => exact absurd hij (by simp)
      | succ jv =>
        have hj' : jv < rest.length := by simpa using hj
        cases iv with
        | zero =>
          apply List.mem_append.mpr
          left
          apply List.mem_filterMap.mpr
          refine ⟨rest.get ⟨jv, hj'⟩, List.get_mem _ _ _, ?_⟩
          rw [if_pos (by simpa using hc)]
          simp
        | succ iv =>
          have hi' : iv < rest.length := by simpa using hi
          apply List.mem_append.mpr
          right
          apply ih.mpr
          exact ⟨⟨iv, hi'⟩, ⟨jv, hj'⟩, by simpa using hij, by simpa using hc, by simp⟩

theorem pairDeductions_type {gs : List OneAwayGuess} {d : Deduction}
    (hd : d ∈ pairDeductions gs) : d.type = DeductionType.must_be_together := by
  obtain ⟨i, j, -, -, rfl⟩ := mem_pairDeductions.mp hd
  rfl

theorem findDefiniteWords_filter_exactlyThree (gs : List OneAwayGuess) :
    (findDefiniteWords gs).filter
        (fun d => d.type == DeductionType.exactly_three) =
      gs.map exactlyThreeDeduction := by
  rw [findDefiniteWords, List.filter_append]
  have h1 : (gs.map exactlyThreeDeduction).filter
      (fun d => d.type == DeductionType.exactly_three) = gs.map exactlyThreeDeduction := by
    apply List.filter_eq_self.mpr
    intro d hd
    rcases List.mem_map.mp hd with ⟨g, -, rfl⟩
    rfl
  have h2 : (pairDeductions gs).filter
      (fun d => d.type == DeductionType.exactly_three) = [] := by
    apply List.filter_eq_nil_iff.mpr
    intro d hd
    rw [pairDeductions_type hd]
    simp
  rw [h1, h2, List.append_nil]

theorem mem_findDefiniteWords_mbt {gs : List OneAwayGuess} {d : Deduction}
    (hty : d.type = DeductionType.must_be_together) :
    d ∈ findDefiniteWords gs ↔ d ∈ pairDeductions gs := by
  rw [findDefiniteWords, List.mem_append]
  constructor
  · rintro (hd | hd)
    · rcases List.mem_map.mp hd with ⟨g, -, rfl⟩
      cases hty
    · exact hd
  · exact Or.inr

/-! ### Permutation invariance machinery -/

theorem choice_union_perm {gs gs' : List OneAwayGuess} (h : gs.Perm gs') :
    ∀ {F : Finset String},
    (∃ ts, isTripletChoice gs ts ∧ F = unionFinsets ts) →
    (∃ ts, isTripletChoice gs' ts ∧ F = unionFinsets ts) := by
  induction h with
  | nil => exact fun h => h
  | cons x h ih =>
    rintro F ⟨ts, hch, hF⟩
    rcases List.forall₂_cons_left_iff.mp hch with ⟨t, ts0, hxt, hch0, rfl⟩
    obtain ⟨ts0', hch0', hU⟩ := ih ⟨ts0, hch0, rfl⟩
    refine ⟨t :: ts0', List.Forall₂.cons hxt hch0', ?_⟩
    rw [hF, unionFinsets_cons, unionFinsets_cons, ← hU]
  | swap x y l =>
    rintro F ⟨ts, hch, hF⟩
    rcases List.forall₂_cons_left_iff.mp hch with ⟨t1, ts1, hyt, hch1, rfl⟩
    rcases List.forall₂_cons_left_iff.mp hch1 with ⟨t2, ts2, hxt, hch2, rfl⟩
    refine ⟨t2 :: t1 :: ts2, List.Forall₂.cons hxt (List.Forall₂.cons hyt hch2), ?_⟩
    rw [hF]
    simp only [unionFinsets_cons]
    rw [← Finset.union_assoc, Finset.union_comm t1.toFinset t2.toFinset,
      Finset.union_assoc]
  | trans _ _ ih1 ih2 =>
    exact fun h => ih2 (ih1 h)

theorem abstractDeductions_append (l1 l2 : List Deduction) :
    abstractDeductions (l1 ++ l2) = abstractDeductions l1 ∪ abstractDeductions l2 := by
  simp [abstractDeductions, List.toFinset_append]

theorem abstractDeductions_of_perm {l1 l2 : List Deduction} (h : l1.Perm l2) :
    abstractDeductions l1 = abstractDeductions l2 :=
  List.toFinset_eq_of_perm _ _ (h.map abstractDeduction)

theorem abstract_mbt_symm (g1 g2 : OneAwayGuess) :
    abstractDeduction (mustBeTogetherDeduction g1 g2) =
      abstractDeduction (mustBeTogetherDeduction g2 g1) := by
  simp only [abstractDeduction, mustBeTogetherDeduction, commonWords_toFinset]
  rw [Finset.inter_comm]

theorem commonWords_length_symm {g1 g2 : OneAwayGuess}
    (h1 : g1.wordsList.Nodup) (h2 : g2.wordsList.Nodup) :
    (commonWords g1 g2).length = (commonWords g2 g1).length := by
  rw [commonWords_length g2 h1, commonWords_length g1 h2, Finset.inter_comm]

theorem pairDeductions_abstract_perm {gs gs' : List OneAwayGuess} (h : gs.Perm gs')
    (hn : ∀ g ∈ gs, g.wordsList.Nodup) :
    abstractDeductions (pairDeductions gs) = abstractDeductions (pairDeductions gs') := by
  induction h with
  | nil => rfl
  | cons x h ih =>
    simp only [pairDeductions, abstractDeductions_append]
    rw [ih (fun g hg => hn g (List.mem_cons_of_mem x hg)),
      abstractDeductions_of_perm (List.Perm.filterMap _ h)]
  | swap x y l =>
    have hnx : x.wordsList.Nodup := hn x (by simp)
    have hny : y.wordsList.Nodup := hn y (by simp)
    simp only [pairDeductions, List.filterMap_cons, abstractDeductions_append]
    by_cases hc : 3 ≤ (commonWords y x).length
    · have hc' : 3 ≤ (commonWords x y).length := by
        rwa [commonWords_length_symm hny hnx] at hc
      rw [if_pos hc, if_pos hc']
      have habs : abstractDeductions (mustBeTogetherDeduction y x :: List.filterMap
          (fun g2 => if 3 ≤ (commonWords y g2).length then
            some (mustBeTogetherDeduction y g2) else none) l) =
          {abstractDeduction (mustBeTogetherDeduction y x)} ∪ abstractDeductions
            (List.filterMap (fun g2 => if 3 ≤ (commonWords y g2).length then
              some (mustBeTogetherDeduction y g2) else none) l) := by
        simp [abstractDeductions, Finset.insert_eq]
      have habs' : abstractDeductions (mustBeTogetherDeduction x y :: List.filterMap
          (fun g2 => if 3 ≤ (commonWords x g2).length then
            some (mustBeTogetherDeduction x g2) else none) l) =
          {abstractDeduction (mustBeTogetherDeduction x y)} ∪ abstractDeductions
            (List.filterMap (fun g2 => if 3 ≤ (commonWords x g2).length then
              some (mustBeTogetherDeduction x g2) else none) l) := by
        simp [abstractDeductions, Finset.insert_eq]
      rw [habs, habs', abstract_mbt_symm y x]
      ext a
      simp only [Finset.mem_union]
      tauto
    · have hc' : ¬ 3 ≤ (commonWords x y).length := by
        rwa [commonWords_length_symm hny hnx] at hc
      rw [if_neg hc, if_neg hc']
      ext a
      simp only [Finset.mem_union]
      tauto
  | trans h1 h2 ih1 ih2 =>
    rw [ih1 hn, ih2 (fun g hg => hn g (h1.mem_iff.mpr hg))]

theorem mem_scenarioFinsets {l : List (List String)} {F : Finset String} :
    F ∈ scenarioFinsets l ↔ ∃ s ∈ l, s.toFinset = F := by
  simp [scenarioFinsets]

theorem scenarioStep_elems {poss : List (List String)} {g : OneAwayGuess}
    (hposs : ∀ s ∈ poss, s.Nodup ∧ s ≠ [] ∧ ∀ w ∈ s, commaFreeWord w)
    (hg : ∀ w ∈ g.wordsList, commaFreeWord w) :
    ∀ s' ∈ scenarioStep poss g, s'.Nodup ∧ s' ≠ [] ∧ ∀ w ∈ s', commaFreeWord w := by
  intro s' hmem
  obtain ⟨s, hs, t, ht, _, rfl⟩ := mem_scenarioStep.mp hmem
  obtain ⟨hnd, hne, hcf⟩ := hposs s hs
  refine ⟨mergeScenario_nodup _ _, mergeScenario_ne_nil _ hne, ?_⟩
  intro w hw
  rw [mergeScenario] at hw
  rcases List.mem_append.mp (jsDedup_mem.mp hw) with hw | hw
  · exact hcf w hw
  · exact hg w (triplet_words_subset ht w (jsDedup_mem.mp hw))

theorem foldl_scenarioStep_elems :
    ∀ (rs : List OneAwayGuess) (poss : List (List String)),
    (∀ s ∈ poss, s.Nodup ∧ s ≠ [] ∧ ∀ w ∈ s, commaFreeWord w) →
    (∀ g ∈ rs, ∀ w ∈ g.wordsList, commaFreeWord w) →
    ∀ s ∈ rs.foldl scenarioStep poss, s.Nodup ∧ s ≠ [] ∧ ∀ w ∈ s, commaFreeWord w
  | [], poss, hposs, _ => by simpa using hposs
  | r :: rs', poss, hposs, hcf => by
    rw [List.foldl_cons]
    exact foldl_scenarioStep_elems rs' (scenarioStep poss r)
      (scenarioStep_elems hposs (hcf r (List.mem_cons_self _ _)))
      (fun g hg => hcf g (List.mem_cons_of_mem _ hg))

theorem seed_elems {g0 : OneAwayGuess} (hg0 : ∀ w ∈ g0.wordsList, commaFreeWord w) :
    ∀ s ∈ (getPossibleTriplets g0).map jsDedup,
      s.Nodup ∧ s ≠ [] ∧ ∀ w ∈ s, commaFreeWord w := by
  intro s hs
  rcases List.mem_map.mp hs with ⟨t, ht, rfl⟩
  refine ⟨jsDedup_nodup t, jsDedup_ne_nil (triplet_ne_nil ht), ?_⟩
  intro w hw
  exact hg0 w (triplet_words_subset ht w (jsDedup_mem.mp hw))

/-- For comma-free words, the possible groupings are, as a set of word
sets, exactly the unions of one candidate triplet per guess that stay
within 4 words. -/
theorem cpg_finsets_char (aw : List String) {g0 : OneAwayGuess}
    {rest : List OneAwayGuess} {F : Finset String}
    (hcf : ∀ g ∈ g0 :: rest, ∀ w ∈ g.wordsList, commaFreeWord w) :
    F ∈ scenarioFinsets (computePossibleGroupings aw (g0 :: rest)) ↔
    (∃ ts, isTripletChoice (g0 :: rest) ts ∧ F = unionFinsets ts ∧ F.card ≤ 4) := by
  rw [mem_scenarioFinsets]
  show (∃ s ∈ dedupScenariosAux
    (rest.foldl scenarioStep ((getPossibleTriplets g0).map jsDedup)) [], s.toFinset = F) ↔ _
  rw [dedup_preserves_finsets (foldl_scenarioStep_elems rest _
    (seed_elems (hcf g0 (List.mem_cons_self _ _)))
    (fun g hg => hcf g (List.mem_cons_of_mem _ hg))) F]
  exact preDedup_char g0 rest F

/-! ### Remaining helper lemmas -/

theorem triplet_nodup {g : OneAwayGuess} {t : List String}
    (hn : g.wordsList.Nodup) (ht : t ∈ getPossibleTriplets g) : t.Nodup := by
  simp only [OneAwayGuess.wordsList, List.nodup_cons, List.mem_cons,
    List.not_mem_nil, or_false, not_or, List.nodup_nil, and_true] at hn
  simp only [getPossibleTriplets, List.mem_cons, List.not_mem_nil, or_false] at ht
  rcases ht with rfl | rfl | rfl | rfl <;>
    simp only [List.nodup_cons, List.mem_cons, List.not_mem_nil, or_false, not_or,
      List.nodup_nil, and_true] <;>
    tauto

theorem triplet_toFinset_card {g : OneAwayGuess} {t : List String}
    (hn : g.wordsList.Nodup) (ht : t ∈ getPossibleTriplets g) : t.toFinset.card = 3 := by
  rw [List.toFinset_card_of_nodup (triplet_nodup hn ht), triplet_length ht]

theorem triplet_toFinset_subset {g : OneAwayGuess} {t : List String}
    (ht : t ∈ getPossibleTriplets g) : t.toFinset ⊆ g.wordsSet := by
  intro w hw
  exact List.mem_toFinset.mpr (triplet_words_subset ht w (List.mem_toFinset.mp hw))

theorem foldl_scenarioStep_card :
    ∀ (rs : List OneAwayGuess) (poss : List (List String)),
    (∀ s ∈ poss, s.Nodup ∧ 3 ≤ s.toFinset.card ∧ s.toFinset.card ≤ 4) →
    ∀ s ∈ rs.foldl scenarioStep poss,
      s.Nodup ∧ 3 ≤ s.toFinset.card ∧ s.toFinset.card ≤ 4
  | [], poss, hposs => by simpa using hposs
  | r :: rs', poss, hposs => by
    rw [List.foldl_cons]
    apply foldl_scenarioStep_card rs' (scenarioStep poss r)
    intro s' hs'
    obtain ⟨s, hs, t, _, hc, rfl⟩ := mem_scenarioStep.mp hs'
    obtain ⟨hnd, hlo, _⟩ := hposs s hs
    refine ⟨mergeScenario_nodup _ _, ?_, ?_⟩
    · rw [mergeScenario_toFinset]
      exact le_trans hlo (Finset.card_le_card Finset.subset_union_left)
    · rw [← List.toFinset_card_of_nodup (mergeScenario_nodup s t)] at hc
      exact hc

theorem analyzeGuesses_insights_two_or_more (aw : List String) (g0 g1 : OneAwayGuess)
    (rest : List OneAwayGuess)
    (hpg : computePossibleGroupings aw (g0 :: g1 :: rest) = []) :
    (analyzeGuesses aw (g0 :: g1 :: rest)).insights = [] := by
  simp [analyzeGuesses, hpg]

theorem definitelyTogetherWords_mem {pgs : List (List String)} (hne : pgs ≠ [])
    {w : String} :
    w ∈ definitelyTogetherWords pgs ↔ ∀ G ∈ pgs, w ∈ G := by
  cases pgs with
  | nil => exact absurd rfl hne
  | cons h t =>
    simp only [definitelyTogetherWords, List.headD_cons, List.mem_filter, jsDedup_mem,
      List.all_eq_true, decide_eq_true_eq]
    constructor
    · rintro ⟨-, hall⟩
      exact hall
    · intro hall
      exact ⟨hall h (List.mem_cons_self _ _), hall⟩

theorem analyzeGuesses_insights_cons (aw : List String) (g0 : OneAwayGuess)
    (rest : List OneAwayGuess) :
    (analyzeGuesses aw (g0 :: rest)).insights =
      (if rest.length = 0 then
        ["One of these 4 words doesn\u0027t belong with the other 3: "
          ++ joinWith ", " g0.wordsList]
      else []) ++
      (if (computePossibleGroupings aw (g0 :: rest)).length = 1 then
        ["Found a definite group: "
          ++ joinWith ", " ((computePossibleGroupings aw (g0 :: rest)).headD [])]
      else if 1 < (computePossibleGroupings aw (g0 :: rest)).length ∧
          (computePossibleGroupings aw (g0 :: rest)).length ≤ 4 then
        ["Narrowed down to " ++ toString (computePossibleGroupings aw (g0 :: rest)).length
          ++ " possible groupings"]
      else []) ++
      (if 0 < (computePossibleGroupings aw (g0 :: rest)).length then
        if 2 ≤ (definitelyTogetherWords (computePossibleGroupings aw (g0 :: rest))).length then
          ["These words are definitely together: "
            ++ joinWith ", " (definitelyTogetherWords (computePossibleGroupings aw (g0 :: rest)))]
        else []
      else []) := rfl

theorem insight_head_ne {x y : String} {c1 c2 : Char}
    (hx : x.data.head? = some c1) (hy : y.data.head? = some c2) (hc : c1 ≠ c2) :
    x ≠ y := by
  intro h
  rw [h, hy] at hx
  exact hc (Option.some.inj hx.symm)

theorem together_insight_head (s : String) :
    ("These words are definitely together: " ++ s).data.head? = some 'T' := by
  rw [String.data_append]; rfl

theorem one_insight_head (s : String) :
    ("One of these 4 words doesn\u0027t belong with the other 3: " ++ s).data.head? =
      some 'O' := by
  rw [String.data_append]; rfl

theorem found_insight_head (s : String) :
    ("Found a definite group: " ++ s).data.head? = some 'F' := by
  rw [String.data_append]; rfl

theorem narrowed_insight_head (s t : String) :
    ("Narrowed down to " ++ s ++ t).data.head? = some 'N' := by
  rw [String.data_append, String.data_append]; rfl

theorem triplet_finsets_eq (g : OneAwayGuess) (h : g.wordsList.Nodup) :
    ([g.w1, g.w2, g.w3] : List String).toFinset = g.wordsSet \ {g.w4} ∧
    ([g.w1, g.w2, g.w4] : List String).toFinset = g.wordsSet \ {g.w3} ∧
    ([g.w1, g.w3, g.w4] : List String).toFinset = g.wordsSet \ {g.w2} ∧
    ([g.w2, g.w3, g.w4] : List String).toFinset = g.wordsSet \ {g.w1} := by
  simp only [OneAwayGuess.wordsList, List.nodup_cons, List.mem_cons,
    List.not_mem_nil, or_false, not_or, List.nodup_nil, and_true] at h
  obtain ⟨⟨h12, h13, h14⟩, ⟨h23, h24⟩, h34⟩ := h
  refine ⟨?_, ?_, ?_, ?_⟩ <;>
    · ext x
      simp only [List.mem_toFinset, OneAwayGuess.wordsSet, OneAwayGuess.wordsList,
        List.mem_cons, List.not_mem_nil, or_false, Finset.mem_sdiff,
        Finset.mem_singleton]
      constructor
      · rintro (rfl | rfl | rfl) <;> tauto
      · rintro ⟨rfl | rfl | rfl | rfl, hne⟩ <;> tauto

theorem exists_triplet_finset_sdiff {g : OneAwayGuess} (hn : g.wordsList.Nodup)
    {w : String} (hw : w ∈ g.wordsList) :
    ∃ t ∈ getPossibleTriplets g, t.toFinset = g.wordsSet \ {w} := by
  obtain ⟨hA, hB, hC, hD⟩ := triplet_finsets_eq g hn
  simp only [OneAwayGuess.wordsList, List.mem_cons, List.not_mem_nil, or_false] at hw
  rcases hw with rfl | rfl | rfl | rfl
  · exact ⟨[g.w2, g.w3, g.w4], by simp [getPossibleTriplets], hD⟩
  · exact ⟨[g.w1, g.w3, g.w4], by simp [getPossibleTriplets], hC⟩
  · exact ⟨[g.w1, g.w2, g.w4], by simp [getPossibleTriplets], hB⟩
  · exact ⟨[g.w1, g.w2, g.w3], by simp [getPossibleTriplets], hA⟩

theorem triplet_finset_char {g : OneAwayGuess} {t : List String}
    (hn : g.wordsList.Nodup) (ht : t ∈ getPossibleTriplets g) :
    ∃ w ∈ g.wordsList, t.toFinset = g.wordsSet \ {w} := by
  obtain ⟨hA, hB, hC, hD⟩ := triplet_finsets_eq g hn
  simp only [getPossibleTriplets, List.mem_cons, List.not_mem_nil, or_false] at ht
  rcases ht with rfl | rfl | rfl | rfl
  · exact ⟨g.w4, by simp [OneAwayGuess.wordsList], hA⟩
  · exact ⟨g.w3, by simp [OneAwayGuess.wordsList], hB⟩
  · exact ⟨g.w2, by simp [OneAwayGuess.wordsList], hC⟩
  · exact ⟨g.w1, by simp [OneAwayGuess.wordsList], hD⟩

theorem dedupScenariosAux_ne_nil {l : List (List String)} (h : l ≠ []) :
    dedupScenariosAux l [] ≠ [] := by
  cases l with
  | nil => exact absurd rfl h
  | cons x rest =>
    rw [dedupScenariosAux, if_neg (List.not_mem_nil _)]
    exact List.cons_ne_nil _ _

/-! ### The claims -/

/-- Claim C2: for every guess with exactly 4 distinct words,
possibleTriplets returns exactly 4 triplets, each of size 3, each a
subset of the words of the guess, and — listed via their word sets —
each drops exactly one distinct word, the 4th, 3rd, 2nd, 1st in that
fixed order, so all 4 words are excluded once each across the 4
triplets. -/
theorem claim_C2 (g : OneAwayGuess) (h : g.wordsList.Nodup) :
    (getPossibleTriplets g).length = 4 ∧
    (∀ t ∈ getPossibleTriplets g,
      t.length = 3 ∧ t.toFinset.card = 3 ∧ t.toFinset ⊆ g.wordsSet) ∧
    (getPossibleTriplets g).map List.toFinset =
      [g.wordsSet \ {g.w4}, g.wordsSet \ {g.w3}, g.wordsSet \ {g.w2},
        g.wordsSet \ {g.w1}] := by
  refine ⟨rfl, ?_, ?_⟩
  · intro t ht
    exact ⟨triplet_length ht, triplet_toFinset_card h ht, triplet_toFinset_subset ht⟩
  · obtain ⟨hA, hB, hC, hD⟩ := triplet_finsets_eq g h
    simp only [getPossibleTriplets, List.map_cons, List.map_nil, List.cons.injEq,
      and_true]
    exact ⟨hA, hB, hC, hD⟩

/-- Witness for claim C2 at a concrete guess. -/
theorem claim_C2_witness :
    (OneAwayGuess.mk "g" "a" "b" "c" "d").wordsList.Nodup ∧
    ((getPossibleTriplets (OneAwayGuess.mk "g" "a" "b" "c" "d")).length = 4 ∧
    (∀ t ∈ getPossibleTriplets (OneAwayGuess.mk "g" "a" "b" "c" "d"),
      t.length = 3 ∧ t.toFinset.card = 3 ∧
        t.toFinset ⊆ (OneAwayGuess.mk "g" "a" "b" "c" "d").wordsSet) ∧
    (getPossibleTriplets (OneAwayGuess.mk "g" "a" "b" "c" "d")).map List.toFinset =
      [(OneAwayGuess.mk "g" "a" "b" "c" "d").wordsSet \ {"d"},
        (OneAwayGuess.mk "g" "a" "b" "c" "d").wordsSet \ {"c"},
        (OneAwayGuess.mk "g" "a" "b" "c" "d").wordsSet \ {"b"},
        (OneAwayGuess.mk "g" "a" "b" "c" "d").wordsSet \ {"a"}]) :=
  ⟨by decide, claim_C2 (OneAwayGuess.mk "g" "a" "b" "c" "d") (by decide)⟩

/-- Claim C7: for the empty guess list, analyzeGuesses returns empty
deductions, empty possibleGroups, and exactly one insight (the prompt
to log a guess); the call is total and does not fail. -/
theorem claim_C7 (allWords : List String) :
    (analyzeGuesses allWords []).deductions = [] ∧
    (analyzeGuesses allWords []).possibleGroups = [] ∧
    (analyzeGuesses allWords []).insights =
      ["Log a one-away guess to start deducing!"] :=
  ⟨rfl, rfl, rfl⟩

/-- Claim C8: the result of analyzeGuesses does not depend on the
allWords argument (the source accepts it but never reads it). -/
theorem claim_C8 (allWords1 allWords2 : List String) (guesses : List OneAwayGuess) :
    analyzeGuesses allWords1 guesses = analyzeGuesses allWords2 guesses := rfl

/-- Claim C10: whenever at least 2 guesses are logged and the scenario
merge comes back empty, analyzeGuesses produces no insight at all —
unlike the 0-guess and 1-guess cases, which always produce one. -/
theorem claim_C10 (aw : List String) (gs : List OneAwayGuess)
    (hlen : 2 ≤ gs.length) (hpg : computePossibleGroupings aw gs = []) :
    (analyzeGuesses aw gs).insights = [] ∧
    (∀ g : OneAwayGuess, (analyzeGuesses aw [g]).insights ≠ []) ∧
    (analyzeGuesses aw []).insights.length = 1 := by
  refine ⟨?_, ?_, rfl⟩
  · match gs, hlen with
    | g0 :: g1 :: rest, _ => exact analyzeGuesses_insights_two_or_more aw g0 g1 rest hpg
  · intro g
    simp [analyzeGuesses]

/-- Witness for claim C10 at two disjoint concrete guesses. -/
theorem claim_C10_witness :
    2 ≤ ([OneAwayGuess.mk "1" "a" "b" "c" "d",
          OneAwayGuess.mk "2" "e" "f" "g" "h"] : List OneAwayGuess).length ∧
    computePossibleGroupings []
      [OneAwayGuess.mk "1" "a" "b" "c" "d", OneAwayGuess.mk "2" "e" "f" "g" "h"] = [] ∧
    ((analyzeGuesses []
      [OneAwayGuess.mk "1" "a" "b" "c" "d", OneAwayGuess.mk "2" "e" "f" "g" "h"]).insights = [] ∧
    (∀ g : OneAwayGuess, (analyzeGuesses [] [g]).insights ≠ []) ∧
    (analyzeGuesses [] ([] : List OneAwayGuess)).insights.length = 1) :=
  ⟨by decide, by decide, claim_C10 [] _ (by decide) (by decide)⟩

/-- Claim C9: when every guess has 4 distinct words, every possible
grouping has between 3 and 4 distinct words, and the output is
duplicate-free: no two elements share the sorted-member-list key, and
in particular no two elements have the same word set. -/
theorem claim_C9 (aw : List String) (gs : List OneAwayGuess)
    (hn : ∀ g ∈ gs, g.wordsList.Nodup) :
    (∀ S ∈ computePossibleGroupings aw gs,
      3 ≤ S.toFinset.card ∧ S.toFinset.card ≤ 4) ∧
    (computePossibleGroupings aw gs).Pairwise
      (fun a b => scenarioKey a ≠ scenarioKey b) ∧
    (computePossibleGroupings aw gs).Pairwise
      (fun a b => a.toFinset ≠ b.toFinset) := by
  cases gs with
  | nil => simp [computePossibleGroupings]
  | cons g0 rest =>
    have hseed : ∀ s ∈ (getPossibleTriplets g0).map jsDedup,
        s.Nodup ∧ 3 ≤ s.toFinset.card ∧ s.toFinset.card ≤ 4 := by
      intro s hs
      rcases List.mem_map.mp hs with ⟨t, ht, rfl⟩
      have hn0 := hn g0 (List.mem_cons_self _ _)
      refine ⟨jsDedup_nodup t, ?_, ?_⟩ <;>
        rw [jsDedup_toFinset, triplet_toFinset_card hn0 ht] <;> omega
    have hfold := foldl_scenarioStep_card rest _ hseed
    have hsubset : ∀ S ∈ computePossibleGroupings aw (g0 :: rest),
        S ∈ rest.foldl scenarioStep ((getPossibleTriplets g0).map jsDedup) :=
      fun S hS => dedupScenariosAux_subset S hS
    refine ⟨?_, ?_, ?_⟩
    · intro S hS
      exact (hfold S (hsubset S hS)).2
    · exact dedupScenariosAux_pairwise_key _ []
    · apply List.Pairwise.imp_of_mem ?_ (dedupScenariosAux_pairwise_key _ [])
      intro a b ha hb hkey hfin
      exact hkey (scenarioKey_congr (hfold a (hsubset a ha)).1
        (hfold b (hsubset b hb)).1 hfin)

/-- Witness for claim C9 at a concrete pair of overlapping guesses. -/
theorem claim_C9_witness :
    (∀ g ∈ [OneAwayGuess.mk "1" "a" "b" "c" "d", OneAwayGuess.mk "2" "a" "b" "c" "e"],
      g.wordsList.Nodup) ∧
    ((∀ S ∈ computePossibleGroupings []
        [OneAwayGuess.mk "1" "a" "b" "c" "d", OneAwayGuess.mk "2" "a" "b" "c" "e"],
      3 ≤ S.toFinset.card ∧ S.toFinset.card ≤ 4) ∧
    (computePossibleGroupings []
        [OneAwayGuess.mk "1" "a" "b" "c" "d", OneAwayGuess.mk "2" "a" "b" "c" "e"]).Pairwise
      (fun a b => scenarioKey a ≠ scenarioKey b) ∧
    (computePossibleGroupings []
        [OneAwayGuess.mk "1" "a" "b" "c" "d", OneAwayGuess.mk "2" "a" "b" "c" "e"]).Pairwise
      (fun a b => a.toFinset ≠ b.toFinset)) :=
  ⟨by decide, claim_C9 [] _ (by decide)⟩

/-- Claim C6: for two guesses sharing no word (8 distinct words), the
analysis emits no must_be_together deduction and the possible groupings
are empty, every candidate merge having 6 distinct words. -/
theorem claim_C6 (aw : List String) (g1 g2 : OneAwayGuess)
    (hn1 : g1.wordsList.Nodup) (hn2 : g2.wordsList.Nodup)
    (hdisj : g1.wordsSet ∩ g2.wordsSet = ∅) :
    (∀ d ∈ (analyzeGuesses aw [g1, g2]).deductions,
      d.type ≠ DeductionType.must_be_together) ∧
    (analyzeGuesses aw [g1, g2]).possibleGroups = [] := by
  have hmergelen : ∀ t1 ∈ getPossibleTriplets g1, ∀ t2 ∈ getPossibleTriplets g2,
      (mergeScenario (jsDedup t1) t2).length = 6 := by
    intro t1 ht1 t2 ht2
    rw [mergeScenario_length, jsDedup_toFinset]
    have hd : Disjoint t1.toFinset t2.toFinset := by
      rw [Finset.disjoint_left]
      intro w hw1 hw2
      have hmem : w ∈ g1.wordsSet ∩ g2.wordsSet :=
        Finset.mem_inter.mpr ⟨triplet_toFinset_subset ht1 hw1,
          triplet_toFinset_subset ht2 hw2⟩
      rw [hdisj] at hmem
      exact absurd hmem (Finset.not_mem_empty w)
    rw [Finset.card_union_of_disjoint hd, triplet_toFinset_card hn1 ht1,
      triplet_toFinset_card hn2 ht2]
  have hstep : scenarioStep ((getPossibleTriplets g1).map jsDedup) g2 = [] := by
    apply List.eq_nil_iff_forall_not_mem.mpr
    intro s' hs'
    obtain ⟨s, hs, t, ht, hc, -⟩ := mem_scenarioStep.mp hs'
    rcases List.mem_map.mp hs with ⟨t1, ht1, rfl⟩
    rw [hmergelen t1 ht1 t ht] at hc
    omega
  constructor
  · intro d hd hty
    rw [analyzeGuesses_deductions, mem_findDefiniteWords_mbt hty] at hd
    obtain ⟨i, j, hij, hc, -⟩ := mem_pairDeductions.mp hd
    have hi : (i : ℕ) < 2 := by simpa using i.isLt
    have hj : (j : ℕ) < 2 := by simpa using j.isLt
    have hi0 : (i : ℕ) = 0 := by omega
    have hj1 : (j : ℕ) = 1 := by omega
    have hget_i : ([g1, g2] : List OneAwayGuess).get i = g1 := by
      rcases i with ⟨iv, hiv⟩
      simp only [Fin.val] at hi0
      subst hi0
      rfl
    have hget_j : ([g1, g2] : List OneAwayGuess).get j = g2 := by
      rcases j with ⟨jv, hjv⟩
      simp only [Fin.val] at hj1
      subst hj1
      rfl
    rw [hget_i, hget_j, commonWords_length g2 hn1, hdisj] at hc
    simp at hc
  · rw [analyzeGuesses_possibleGroups]
    show dedupScenariosAux
      ([g2].foldl scenarioStep ((getPossibleTriplets g1).map jsDedup)) [] = []
    rw [List.foldl_cons, List.foldl_nil, hstep]
    rfl

/-- Witness for claim C6 at two concrete disjoint guesses. -/
theorem claim_C6_witness :
    (OneAwayGuess.mk "1" "a" "b" "c" "d").wordsList.Nodup ∧
    (OneAwayGuess.mk "2" "e" "f" "g" "h").wordsList.Nodup ∧
    (OneAwayGuess.mk "1" "a" "b" "c" "d").wordsSet ∩
      (OneAwayGuess.mk "2" "e" "f" "g" "h").wordsSet = ∅ ∧
    ((∀ d ∈ (analyzeGuesses []
        [OneAwayGuess.mk "1" "a" "b" "c" "d", OneAwayGuess.mk "2" "e" "f" "g" "h"]).deductions,
      d.type ≠ DeductionType.must_be_together) ∧
    (analyzeGuesses []
        [OneAwayGuess.mk "1" "a" "b" "c" "d",
          OneAwayGuess.mk "2" "e" "f" "g" "h"]).possibleGroups = []) :=
  ⟨by decide, by decide, by decide, claim_C6 [] _ _ (by decide) (by decide) (by decide)⟩

/-- Claim C3: the deductions contain exactly one exactly_three
deduction per guess, carrying its 4 words verbatim, in guess order;
every pair of guesses sharing at least 3 words yields a
must_be_together deduction over exactly the words appearing in both;
and every must_be_together deduction comes from a pair sharing at
least 3 words, so pairs sharing exactly 2 words yield none. -/
theorem claim_C3 (aw : List String) (gs : List OneAwayGuess)
    (hn : ∀ g ∈ gs, g.wordsList.Nodup) :
    ((analyzeGuesses aw gs).deductions.filter
        (fun d => d.type == DeductionType.exactly_three) =
      gs.map exactlyThreeDeduction) ∧
    (∀ i j : Fin gs.length, (i : ℕ) < (j : ℕ) →
      3 ≤ ((gs.get i).wordsSet ∩ (gs.get j).wordsSet).card →
      mustBeTogetherDeduction (gs.get i) (gs.get j) ∈
          (analyzeGuesses aw gs).deductions ∧
        (mustBeTogetherDeduction (gs.get i) (gs.get j)).words.toFinset =
          (gs.get i).wordsSet ∩ (gs.get j).wordsSet) ∧
    (∀ d ∈ (analyzeGuesses aw gs).deductions,
      d.type = DeductionType.must_be_together →
      ∃ i j : Fin gs.length, (i : ℕ) < (j : ℕ) ∧
        3 ≤ ((gs.get i).wordsSet ∩ (gs.get j).wordsSet).card ∧
        d = mustBeTogetherDeduction (gs.get i) (gs.get j)) := by
  rw [analyzeGuesses_deductions]
  refine ⟨findDefiniteWords_filter_exactlyThree gs, ?_, ?_⟩
  · intro i j hij hcard
    have hni : (gs.get i).wordsList.Nodup := hn _ (List.get_mem gs i i.isLt)
    refine ⟨?_, commonWords_toFinset _ _⟩
    rw [mem_findDefiniteWords_mbt rfl]
    apply mem_pairDeductions.mpr
    refine ⟨i, j, hij, ?_, rfl⟩
    rw [commonWords_length _ hni]
    exact hcard
  · intro d hd hty
    rw [mem_findDefiniteWords_mbt hty] at hd
    obtain ⟨i, j, hij, hc, rfl⟩ := mem_pairDeductions.mp hd
    have hni : (gs.get i).wordsList.Nodup := hn _ (List.get_mem gs i i.isLt)
    refine ⟨i, j, hij, ?_, rfl⟩
    rw [← commonWords_length _ hni]
    exact hc

/-- Witness for claim C3 at two concrete overlapping guesses. -/
theorem claim_C3_witness :
    (∀ g ∈ [OneAwayGuess.mk "1" "a" "b" "c" "d", OneAwayGuess.mk "2" "a" "b" "c" "e"],
      g.wordsList.Nodup) ∧
    (((analyzeGuesses []
        [OneAwayGuess.mk "1" "a" "b" "c" "d",
          OneAwayGuess.mk "2" "a" "b" "c" "e"]).deductions.filter
        (fun d => d.type == DeductionType.exactly_three) =
      [OneAwayGuess.mk "1" "a" "b" "c" "d",
        OneAwayGuess.mk "2" "a" "b" "c" "e"].map exactlyThreeDeduction) ∧
    (∀ i j : Fin ([OneAwayGuess.mk "1" "a" "b" "c" "d",
        OneAwayGuess.mk "2" "a" "b" "c" "e"] : List OneAwayGuess).length,
      (i : ℕ) < (j : ℕ) →
      3 ≤ ((([OneAwayGuess.mk "1" "a" "b" "c" "d",
          OneAwayGuess.mk "2" "a" "b" "c" "e"] : List OneAwayGuess).get i).wordsSet ∩
        (([OneAwayGuess.mk "1" "a" "b" "c" "d",
          OneAwayGuess.mk "2" "a" "b" "c" "e"] : List OneAwayGuess).get j).wordsSet).card →
      mustBeTogetherDeduction
          (([OneAwayGuess.mk "1" "a" "b" "c" "d",
            OneAwayGuess.mk "2" "a" "b" "c" "e"] : List OneAwayGuess).get i)
          (([OneAwayGuess.mk "1" "a" "b" "c" "d",
            OneAwayGuess.mk "2" "a" "b" "c" "e"] : List OneAwayGuess).get j) ∈
          (analyzeGuesses []
            [OneAwayGuess.mk "1" "a" "b" "c" "d",
              OneAwayGuess.mk "2" "a" "b" "c" "e"]).deductions ∧
        (mustBeTogetherDeduction
          (([OneAwayGuess.mk "1" "a" "b" "c" "d",
            OneAwayGuess.mk "2" "a" "b" "c" "e"] : List OneAwayGuess).get i)
          (([OneAwayGuess.mk "1" "a" "b" "c" "d",
            OneAwayGuess.mk "2" "a" "b" "c" "e"] : List OneAwayGuess).get j)).words.toFinset =
          (([OneAwayGuess.mk "1" "a" "b" "c" "d",
            OneAwayGuess.mk "2" "a" "b" "c" "e"] : List OneAwayGuess).get i).wordsSet ∩
          (([OneAwayGuess.mk "1" "a" "b" "c" "d",
            OneAwayGuess.mk "2" "a" "b" "c" "e"] : List OneAwayGuess).get j).wordsSet) ∧
    (∀ d ∈ (analyzeGuesses []
        [OneAwayGuess.mk "1" "a" "b" "c" "d",
          OneAwayGuess.mk "2" "a" "b" "c" "e"]).deductions,
      d.type = DeductionType.must_be_together →
      ∃ i j : Fin ([OneAwayGuess.mk "1" "a" "b" "c" "d",
          OneAwayGuess.mk "2" "a" "b" "c" "e"] : List OneAwayGuess).length,
        (i : ℕ) < (j : ℕ) ∧
        3 ≤ ((([OneAwayGuess.mk "1" "a" "b" "c" "d",
            OneAwayGuess.mk "2" "a" "b" "c" "e"] : List OneAwayGuess).get i).wordsSet ∩
          (([OneAwayGuess.mk "1" "a" "b" "c" "d",
            OneAwayGuess.mk "2" "a" "b" "c" "e"] : List OneAwayGuess).get j).wordsSet).card ∧
        d = mustBeTogetherDeduction
          (([OneAwayGuess.mk "1" "a" "b" "c" "d",
            OneAwayGuess.mk "2" "a" "b" "c" "e"] : List OneAwayGuess).get i)
          (([OneAwayGuess.mk "1" "a" "b" "c" "d",
            OneAwayGuess.mk "2" "a" "b" "c" "e"] : List OneAwayGuess).get j))) :=
  ⟨by decide, claim_C3 [] _ (by decide)⟩

/-- Claim C5: whenever possibleGroups is non-empty, the
definitelyTogether words are exactly the words present in every
possible group, and the corresponding insight is appended exactly when
there are at least 2 of them. -/
theorem claim_C5 (aw : List String) (gs : List OneAwayGuess)
    (hne : (analyzeGuesses aw gs).possibleGroups ≠ []) :
    (∀ w : String,
      w ∈ definitelyTogetherWords (analyzeGuesses aw gs).possibleGroups ↔
      ∀ G ∈ (analyzeGuesses aw gs).possibleGroups, w ∈ G) ∧
    ("These words are definitely together: " ++
        joinWith ", " (definitelyTogetherWords (analyzeGuesses aw gs).possibleGroups) ∈
      (analyzeGuesses aw gs).insights ↔
      2 ≤ (definitelyTogetherWords (analyzeGuesses aw gs).possibleGroups).length) := by
  rw [analyzeGuesses_possibleGroups] at hne ⊢
  refine ⟨fun w => definitelyTogetherWords_mem hne, ?_⟩
  cases gs with
  | nil => exact absurd rfl hne
  | cons g0 rest =>
    have hpos : 0 < (computePossibleGroupings aw (g0 :: rest)).length :=
      List.length_pos.mpr hne
    rw [analyzeGuesses_insights_cons]
    by_cases hdt :
        2 ≤ (definitelyTogetherWords (computePossibleGroupings aw (g0 :: rest))).length
    · rw [if_pos hpos, if_pos hdt]
      refine iff_of_true ?_ hdt
      exact List.mem_append.mpr (Or.inr (List.mem_cons_self _ _))
    · rw [if_pos hpos, if_neg hdt, List.append_nil]
      refine iff_of_false ?_ hdt
      intro hmem
      rcases List.mem_append.mp hmem with hmem | hmem
      · by_cases h0 : rest.length = 0
        · rw [if_pos h0] at hmem
          rcases List.mem_cons.mp hmem with heq | hmem
          · exact insight_head_ne (together_insight_head _) (one_insight_head _)
              (by decide) heq
          · exact absurd hmem (List.not_mem_nil _)
        · rw [if_neg h0] at hmem
          exact absurd hmem (List.not_mem_nil _)
      · by_cases h1 : (computePossibleGroupings aw (g0 :: rest)).length = 1
        · rw [if_pos h1] at hmem
          rcases List.mem_cons.mp hmem with heq | hmem
          · exact insight_head_ne (together_insight_head _) (found_insight_head _)
              (by decide) heq
          · exact absurd hmem (List.not_mem_nil _)
        · rw [if_neg h1] at hmem
          by_cases h2 : 1 < (computePossibleGroupings aw (g0 :: rest)).length ∧
              (computePossibleGroupings aw (g0 :: rest)).length ≤ 4
          · rw [if_pos h2] at hmem
            rcases List.mem_cons.mp hmem with heq | hmem
            · exact insight_head_ne (together_insight_head _)
                (narrowed_insight_head _ _) (by decide) heq
            · exact absurd hmem (List.not_mem_nil _)
          · rw [if_neg h2] at hmem
            exact absurd hmem (List.not_mem_nil _)

/-- Witness for claim C5 at a concrete single guess. -/
theorem claim_C5_witness :
    (analyzeGuesses [] [OneAwayGuess.mk "1" "a" "b" "c" "d"]).possibleGroups ≠ [] ∧
    ((∀ w : String,
      w ∈ definitelyTogetherWords
        (analyzeGuesses [] [OneAwayGuess.mk "1" "a" "b" "c" "d"]).possibleGroups ↔
      ∀ G ∈ (analyzeGuesses [] [OneAwayGuess.mk "1" "a" "b" "c" "d"]).possibleGroups,
        w ∈ G) ∧
    ("These words are definitely together: " ++
        joinWith ", " (definitelyTogetherWords
          (analyzeGuesses [] [OneAwayGuess.mk "1" "a" "b" "c" "d"]).possibleGroups) ∈
      (analyzeGuesses [] [OneAwayGuess.mk "1" "a" "b" "c" "d"]).insights ↔
      2 ≤ (definitelyTogetherWords
        (analyzeGuesses [] [OneAwayGuess.mk "1" "a" "b" "c" "d"]).possibleGroups).length)) :=
  ⟨by decide, claim_C5 [] _ (by decide)⟩

/-- Counterexample to claim C1 as stated: the guesses (a,b,c,d) and
(a,b,c,e) share exactly the 3 words a, b, c, yet the possible group
(a,b,d,e) — the merge of triplet (a,b,d) with triplet (a,b,e) — is in
the output and does not contain the shared word c. -/
theorem claim_C1_counterexample :
    ((OneAwayGuess.mk "1" "a" "b" "c" "d").wordsSet ∩
      (OneAwayGuess.mk "2" "a" "b" "c" "e").wordsSet = {"a", "b", "c"}) ∧
    ((OneAwayGuess.mk "1" "a" "b" "c" "d").wordsSet ∩
      (OneAwayGuess.mk "2" "a" "b" "c" "e").wordsSet).card = 3 ∧
    ["a", "b", "d", "e"] ∈ (analyzeGuesses []
      [OneAwayGuess.mk "1" "a" "b" "c" "d",
        OneAwayGuess.mk "2" "a" "b" "c" "e"]).possibleGroups ∧
    "c" ∉ (["a", "b", "d", "e"] : List String) := by
  refine ⟨by decide, by decide, by decide, by decide⟩

/-- Claim C1, amended: for two guesses with 4 distinct words each that
share exactly 3 words, the output contains a must_be_together deduction
over exactly the 3 shared words and possibleGroups is non-empty; but an
element of possibleGroups need only contain at least 2 of the 3 shared
words, not all of them. -/
theorem claim_C1_amended (aw : List String) (g1 g2 : OneAwayGuess)
    (hn1 : g1.wordsList.Nodup) (hn2 : g2.wordsList.Nodup)
    (hshared : (g1.wordsSet ∩ g2.wordsSet).card = 3) :
    (mustBeTogetherDeduction g1 g2 ∈ (analyzeGuesses aw [g1, g2]).deductions ∧
      (mustBeTogetherDeduction g1 g2).type = DeductionType.must_be_together ∧
      (mustBeTogetherDeduction g1 g2).words.toFinset = g1.wordsSet ∩ g2.wordsSet) ∧
    (analyzeGuesses aw [g1, g2]).possibleGroups ≠ [] ∧
    (∀ E ∈ (analyzeGuesses aw [g1, g2]).possibleGroups,
      2 ≤ ((g1.wordsSet ∩ g2.wordsSet) ∩ E.toFinset).card) := by
  have hsub1 : g1.wordsSet ∩ g2.wordsSet ⊆ g1.wordsSet := Finset.inter_subset_left
  have hsub2 : g1.wordsSet ∩ g2.wordsSet ⊆ g2.wordsSet := Finset.inter_subset_right
  have hcard1 : g1.wordsSet.card = 4 := by
    rw [OneAwayGuess.wordsSet, List.toFinset_card_of_nodup hn1]
    rfl
  have hcard2 : g2.wordsSet.card = 4 := by
    rw [OneAwayGuess.wordsSet, List.toFinset_card_of_nodup hn2]
    rfl
  have exists_triplet_inter : ∀ (g : OneAwayGuess), g.wordsList.Nodup →
      g.wordsSet.card = 4 → g1.wordsSet ∩ g2.wordsSet ⊆ g.wordsSet →
      ∃ t ∈ getPossibleTriplets g, t.toFinset = g1.wordsSet ∩ g2.wordsSet := by
    intro g hn hcard hsub
    have hc : (g.wordsSet \ (g1.wordsSet ∩ g2.wordsSet)).card = 1 := by
      rw [Finset.card_sdiff hsub, hcard, hshared]
    obtain ⟨u, hu⟩ := Finset.card_eq_one.mp hc
    have humem : u ∈ g.wordsList := by
      have : u ∈ g.wordsSet \ (g1.wordsSet ∩ g2.wordsSet) := by
        rw [hu]; exact Finset.mem_singleton_self u
      exact List.mem_toFinset.mp (Finset.mem_sdiff.mp this).1
    obtain ⟨t, ht, htfin⟩ := exists_triplet_finset_sdiff hn humem
    refine ⟨t, ht, ?_⟩
    rw [htfin, ← hu, Finset.sdiff_sdiff_self_left,
      Finset.inter_eq_right.mpr hsub]
  refine ⟨⟨?_, rfl, commonWords_toFinset g1 g2⟩, ?_, ?_⟩
  · rw [analyzeGuesses_deductions, mem_findDefiniteWords_mbt rfl]
    apply mem_pairDeductions.mpr
    refine ⟨⟨0, by simp⟩, ⟨1, by simp⟩, by exact Nat.zero_lt_one, ?_, rfl⟩
    show 3 ≤ (commonWords g1 g2).length
    rw [commonWords_length g2 hn1, hshared]
  · rw [analyzeGuesses_possibleGroups]
    obtain ⟨t1, ht1, ht1fin⟩ := exists_triplet_inter g1 hn1 hcard1 hsub1
    obtain ⟨t2, ht2, ht2fin⟩ := exists_triplet_inter g2 hn2 hcard2 hsub2
    have hlen : (mergeScenario (jsDedup t1) t2).length ≤ 4 := by
      rw [mergeScenario_length, jsDedup_toFinset, ht1fin, ht2fin,
        Finset.union_self, hshared]
      omega
    have hmem : mergeScenario (jsDedup t1) t2 ∈
        scenarioStep ((getPossibleTriplets g1).map jsDedup) g2 :=
      mem_scenarioStep.mpr ⟨jsDedup t1, List.mem_map.mpr ⟨t1, ht1, rfl⟩,
        t2, ht2, hlen, rfl⟩
    show dedupScenariosAux
      ([g2].foldl scenarioStep ((getPossibleTriplets g1).map jsDedup)) [] ≠ []
    rw [List.foldl_cons, List.foldl_nil]
    exact dedupScenariosAux_ne_nil (List.ne_nil_of_mem hmem)
  · intro E hE
    rw [analyzeGuesses_possibleGroups] at hE
    have hE' : E ∈ scenarioStep ((getPossibleTriplets g1).map jsDedup) g2 := by
      have := dedupScenariosAux_subset E hE
      rwa [show computePossibleGroupings aw [g1, g2] = dedupScenariosAux
        ([g2].foldl scenarioStep ((getPossibleTriplets g1).map jsDedup)) [] from rfl,
        List.foldl_cons, List.foldl_nil] at hE
    obtain ⟨s, hs, t, ht, -, rfl⟩ := mem_scenarioStep.mp hE'
    rcases List.mem_map.mp hs with ⟨t1, ht1, rfl⟩
    obtain ⟨w, -, ht1fin⟩ := triplet_finset_char hn1 ht1
    have hsubE : (g1.wordsSet ∩ g2.wordsSet) \ {w} ⊆
        (g1.wordsSet ∩ g2.wordsSet) ∩ (mergeScenario (jsDedup t1) t).toFinset := by
      intro x hx
      rcases Finset.mem_sdiff.mp hx with ⟨hxI, hxw⟩
      apply Finset.mem_inter.mpr
      refine ⟨hxI, ?_⟩
      rw [mergeScenario_toFinset, jsDedup_toFinset]
      apply Finset.mem_union_left
      rw [ht1fin]
      exact Finset.mem_sdiff.mpr ⟨hsub1 hxI, hxw⟩
    calc (2 : ℕ) = (g1.wordsSet ∩ g2.wordsSet).card - ({w} : Finset String).card := by
          rw [hshared]; rfl
      _ ≤ ((g1.wordsSet ∩ g2.wordsSet) \ {w}).card := Finset.le_card_sdiff _ _
      _ ≤ _ := Finset.card_le_card hsubE

/-- Witness for the amended claim C1 at the concrete guesses of the
counterexample. -/
theorem claim_C1_witness :
    (OneAwayGuess.mk "1" "a" "b" "c" "d").wordsList.Nodup ∧
    (OneAwayGuess.mk "2" "a" "b" "c" "e").wordsList.Nodup ∧
    ((OneAwayGuess.mk "1" "a" "b" "c" "d").wordsSet ∩
      (OneAwayGuess.mk "2" "a" "b" "c" "e").wordsSet).card = 3 ∧
    ((mustBeTogetherDeduction (OneAwayGuess.mk "1" "a" "b" "c" "d")
        (OneAwayGuess.mk "2" "a" "b" "c" "e") ∈
      (analyzeGuesses [] [OneAwayGuess.mk "1" "a" "b" "c" "d",
        OneAwayGuess.mk "2" "a" "b" "c" "e"]).deductions ∧
      (mustBeTogetherDeduction (OneAwayGuess.mk "1" "a" "b" "c" "d")
        (OneAwayGuess.mk "2" "a" "b" "c" "e")).type = DeductionType.must_be_together ∧
      (mustBeTogetherDeduction (OneAwayGuess.mk "1" "a" "b" "c" "d")
        (OneAwayGuess.mk "2" "a" "b" "c" "e")).words.toFinset =
        (OneAwayGuess.mk "1" "a" "b" "c" "d").wordsSet ∩
          (OneAwayGuess.mk "2" "a" "b" "c" "e").wordsSet) ∧
    (analyzeGuesses [] [OneAwayGuess.mk "1" "a" "b" "c" "d",
      OneAwayGuess.mk "2" "a" "b" "c" "e"]).possibleGroups ≠ [] ∧
    (∀ E ∈ (analyzeGuesses [] [OneAwayGuess.mk "1" "a" "b" "c" "d",
        OneAwayGuess.mk "2" "a" "b" "c" "e"]).possibleGroups,
      2 ≤ (((OneAwayGuess.mk "1" "a" "b" "c" "d").wordsSet ∩
        (OneAwayGuess.mk "2" "a" "b" "c" "e").wordsSet) ∩ E.toFinset).card)) :=
  ⟨by decide, by decide, by decide,
    claim_C1_amended [] _ _ (by decide) (by decide) (by decide)⟩

/-- Counterexample to claim C4 as stated.  First, swapping two guesses
changes the deduction list even viewed as a set of deduction records:
the must_be_together words are listed in the word order of the earlier
guess.  Second, the scenario sets themselves, compared as sets of word
sets, can change under permutation: with words containing commas, two
different word sets can share the sorted-join deduplication key, and
which of the two survives deduplication depends on the guess order. -/
theorem claim_C4_counterexample :
    (([OneAwayGuess.mk "1" "a" "b" "c" "d", OneAwayGuess.mk "2" "c" "b" "a" "e"] :
        List OneAwayGuess).Perm
      [OneAwayGuess.mk "2" "c" "b" "a" "e", OneAwayGuess.mk "1" "a" "b" "c" "d"] ∧
      (analyzeGuesses [] [OneAwayGuess.mk "1" "a" "b" "c" "d",
        OneAwayGuess.mk "2" "c" "b" "a" "e"]).deductions.toFinset ≠
      (analyzeGuesses [] [OneAwayGuess.mk "2" "c" "b" "a" "e",
        OneAwayGuess.mk "1" "a" "b" "c" "d"]).deductions.toFinset) ∧
    (([OneAwayGuess.mk "1" "a" "c" "z" "w", OneAwayGuess.mk "2" "a,b" "b,c" "z" "w"] :
        List OneAwayGuess).Perm
      [OneAwayGuess.mk "2" "a,b" "b,c" "z" "w", OneAwayGuess.mk "1" "a" "c" "z" "w"] ∧
      scenarioFinsets (computePossibleGroupings []
        [OneAwayGuess.mk "1" "a" "c" "z" "w",
          OneAwayGuess.mk "2" "a,b" "b,c" "z" "w"]) ≠
      scenarioFinsets (computePossibleGroupings []
        [OneAwayGuess.mk "2" "a,b" "b,c" "z" "w",
          OneAwayGuess.mk "1" "a" "c" "z" "w"])) := by
  refine ⟨⟨by decide, by decide⟩, ⟨by decide, by decide⟩⟩

/-- Claim C4, amended: for guess lists with 4 distinct words per guess
and no comma inside any word, permuting the guess list preserves the
possible groupings as a set of word sets, and preserves the deduction
list as a set of deductions once the word list of each deduction is
itself compared as a set. -/
theorem claim_C4_amended (aw : List String) (gs gs' : List OneAwayGuess)
    (hperm : gs.Perm gs')
    (hn : ∀ g ∈ gs, g.wordsList.Nodup)
    (hcf : ∀ g ∈ gs, ∀ w ∈ g.wordsList, commaFreeWord w) :
    scenarioFinsets (computePossibleGroupings aw gs) =
      scenarioFinsets (computePossibleGroupings aw gs') ∧
    abstractDeductions (analyzeGuesses aw gs).deductions =
      abstractDeductions (analyzeGuesses aw gs').deductions := by
  have hcf' : ∀ g ∈ gs', ∀ w ∈ g.wordsList, commaFreeWord w :=
    fun g hg => hcf g (hperm.mem_iff.mpr hg)
  constructor
  · cases gs with
    | nil =>
      have : gs' = [] :=
        List.eq_nil_of_length_eq_zero (by simpa using hperm.length_eq.symm)
      subst this
      rfl
    | cons g0 rest =>
      cases gs' with
      | nil =>
        have := hperm.length_eq
        simp at this
      | cons g0' rest' =>
        ext F
        rw [cpg_finsets_char aw hcf, cpg_finsets_char aw hcf']
        constructor
        · rintro ⟨ts, hch, hF, hcard⟩
          obtain ⟨ts', hch', hF'⟩ := choice_union_perm hperm ⟨ts, hch, hF⟩
          exact ⟨ts', hch', hF', hcard⟩
        · rintro ⟨ts, hch, hF, hcard⟩
          obtain ⟨ts', hch', hF'⟩ := choice_union_perm hperm.symm ⟨ts, hch, hF⟩
          exact ⟨ts', hch', hF', hcard⟩
  · rw [analyzeGuesses_deductions, analyzeGuesses_deductions, findDefiniteWords,
      findDefiniteWords, abstractDeductions_append, abstractDeductions_append,
      abstractDeductions_of_perm (hperm.map exactlyThreeDeduction),
      pairDeductions_abstract_perm hperm hn]

/-- Witness for the amended claim C4 at a concrete swapped pair of
guesses. -/
theorem claim_C4_witness :
    (([OneAwayGuess.mk "1" "a" "b" "c" "d", OneAwayGuess.mk "2" "c" "b" "a" "e"] :
        List OneAwayGuess).Perm
      [OneAwayGuess.mk "2" "c" "b" "a" "e", OneAwayGuess.mk "1" "a" "b" "c" "d"]) ∧
    (∀ g ∈ [OneAwayGuess.mk "1" "a" "b" "c" "d", OneAwayGuess.mk "2" "c" "b" "a" "e"],
      g.wordsList.Nodup) ∧
    (∀ g ∈ [OneAwayGuess.mk "1" "a" "b" "c" "d", OneAwayGuess.mk "2" "c" "b" "a" "e"],
      ∀ w ∈ g.wordsList, commaFreeWord w) ∧
    (scenarioFinsets (computePossibleGroupings []
        [OneAwayGuess.mk "1" "a" "b" "c" "d", OneAwayGuess.mk "2" "c" "b" "a" "e"]) =
      scenarioFinsets (computePossibleGroupings []
        [OneAwayGuess.mk "2" "c" "b" "a" "e", OneAwayGuess.mk "1" "a" "b" "c" "d"]) ∧
    abstractDeductions (analyzeGuesses []
        [OneAwayGuess.mk "1" "a" "b" "c" "d",
          OneAwayGuess.mk "2" "c" "b" "a" "e"]).deductions =
      abstractDeductions (analyzeGuesses []
        [OneAwayGuess.mk "2" "c" "b" "a" "e",
          OneAwayGuess.mk "1" "a" "b" "c" "d"]).deductions) :=
  ⟨by decide, by decide, by decide,
    claim_C4_amended [] _ _ (by decide) (by decide) (by decide)⟩

end OneAway
